import Mathlib

/-!
Verification development for `celery/worker/bootsteps.py`.

The module is shallowly embedded: the namespace lifecycle state machine
(`start` / `close` / `stop`) becomes explicit state passing over a `World`
record plus an event trace; the blueprint metaclass (`ComponentType.__new__`)
becomes a pure function on the declared class attributes; the dependency
resolution of `Namespace._finalize_boot_steps` is embedded together with a
topological-sort resolver modelled from the specification (the
`DependencyGraph` collaborator lives outside the embedded source file).
-/

namespace Bootsteps

/-! ### States and process-wide observable state

`RUN`, `CLOSE`, `TERMINATE` mirror the module-level constants 0x1/0x2/0x3.
The class attribute `state = None` (namespace not yet started) is modelled
as `0`, which is distinct from all three constants exactly as `None` is in
the source's comparisons.  The process-wide default socket timeout
(`socket.getdefaulttimeout()`) is `none` (Python `None`) or a number; the
constant `SHUTDOWN_SOCKET_TIMEOUT = 5.0` is the rational 5 (it is only
stored and compared, never computed with). -/

def UNSET : Nat := 0
def RUN : Nat := 1
def CLOSE : Nat := 2
def TERMINATE : Nat := 3

def SHUTDOWN_SOCKET_TIMEOUT : ℚ := 5

/-- The observable state a `Namespace` instance manipulates: its own
`state` and `started` attributes, the one-shot `shutdown_complete` event
(modelled as a Bool that `set()` turns true), and the process-wide default
socket timeout that `stop` saves/overrides. -/
structure World where
  nstate : Nat
  started : Nat
  shutdownComplete : Bool
  timeout : Option ℚ
deriving DecidableEq, Repr

/-- A bound component instance as seen by the lifecycle driver.  `name`
identifies it; `hasClose` records whether the object has a `close`
attribute (the duck-typed lookup in `Namespace.close`); `startExn` is the
exception its `start(parent)` call raises, if any (`none` = the call
completes normally).  Bound component objects are always truthy in Python
(no `__bool__`/`__len__` is defined), so the `if component:` guards in the
source always pass for them. -/
structure Component where
  name : String
  hasClose : Bool
  startExn : Option String
deriving DecidableEq, Repr

/-- Observable calls made during `close`/`stop`: the optional hooks and the
per-component `close`/`stop`/`terminate` invocations. -/
inductive Event where
  | onClose
  | onStopped
  | closeCall (name : String)
  | stopCall (name : String)
  | terminateCall (name : String)
deriving DecidableEq, Repr

/-- The component `stop`/`terminate` invocations in a trace, in order. -/
def stopOrTerminateName : Event → Option String
  | Event.stopCall n => some n
  | Event.terminateCall n => some n
  | _ => none

def stopCalls (tr : List Event) : List String :=
  tr.filterMap stopOrTerminateName

/-! ### `Namespace.start`

```
def start(self, parent):
    self.state = RUN
    if self.on_start:
        self.on_start()
    for i, component in enumerate(parent.components):
        if component:
            self.started = i + 1
            component.start(parent)
```

The loop records `started = i + 1` BEFORE invoking the component's start
call; a raised exception is not caught.  `startAux` returns the final
state, the list of component names whose start call completed, and the
propagated exception (if any).  The `on_start` hook is an external callback
with no effect on the modelled state and is omitted. -/

def startAux : List Component → Nat → World → World × List String × Option String
  | [], _, w => (w, [], none)
  | c :: cs, i, w =>
    let w1 : World := { w with started := i + 1 }
    match c.startExn with
    | some e => (w1, [], some e)
    | none =>
      let r := startAux cs (i + 1) w1
      (r.1, c.name :: r.2.1, r.2.2)

def runStart (comps : List Component) (w : World) : World × List String × Option String :=
  startAux comps 0 { w with nstate := RUN }

/-! ### `Namespace.close`

```
def close(self, parent):
    if self.on_close:
        self.on_close()
    for component in parent.components:
        try:
            close = component.close
        except AttributeError:
            pass
        else:
            close(parent)
```

Pure trace of calls: the optional hook, then `close(parent)` on every
component that has a `close` attribute, in forward list order. -/

def runClose (onClose : Bool) (comps : List Component) : List Event :=
  (if onClose then [Event.onClose] else []) ++
    comps.filterMap (fun c => if c.hasClose then some (Event.closeCall c.name) else none)

/-! ### `Namespace.stop`

```
def stop(self, parent, terminate=False):
    what = 'Terminating' if terminate else 'Stopping'
    socket_timeout = socket.getdefaulttimeout()
    socket.setdefaulttimeout(SHUTDOWN_SOCKET_TIMEOUT)  # Issue 975

    if self.state in (CLOSE, TERMINATE):
        return

    self.close(parent)

    if self.state != RUN or self.started != len(parent.components):
        # Not fully started, can safely exit.
        self.state = TERMINATE
        self.shutdown_complete.set()
        return
    self.state = CLOSE

    for component in reversed(parent.components):
        if component:
            (component.terminate if terminate else component.stop)(parent)

    if self.on_stopped:
        self.on_stopped()
    self.state = TERMINATE
    socket.setdefaulttimeout(socket_timeout)
    self.shutdown_complete.set()
```

The saved timeout is restored only on the final (fully-started) path; the
two early returns leave the 5-second override in place. -/

def runStop (t onClose onStopped : Bool) (comps : List Component) (w : World) :
    World × List Event :=
  let saved := w.timeout
  let w1 : World := { w with timeout := some SHUTDOWN_SOCKET_TIMEOUT }
  if w1.nstate = CLOSE ∨ w1.nstate = TERMINATE then (w1, [])
  else
    let closeEvs := runClose onClose comps
    if w1.nstate ≠ RUN ∨ w1.started ≠ comps.length then
      ({ w1 with nstate := TERMINATE, shutdownComplete := true }, closeEvs)
    else
      let w2 : World := { w1 with nstate := CLOSE }
      let stopEvs := comps.reverse.map
        (fun c => if t then Event.terminateCall c.name else Event.stopCall c.name)
      ({ w2 with nstate := TERMINATE, timeout := saved, shutdownComplete := true },
        closeEvs ++ stopEvs ++ (if onStopped then [Event.onStopped] else []))

/-! ### Blueprints and dependency resolution

`Namespace._finalize_boot_steps`:

```
def _find_last(self):
    for C in self.components.itervalues():
        if C.last:
            return C

def _finalize_boot_steps(self):
    G = self.graph = DependencyGraph((C.name, C.requires)
                        for C in self.components.itervalues())
    last = self._find_last()
    if last:
        for obj in G:
            if obj != last.name:
                G.add_edge(last.name, obj)
    return G.topsort()
```

The claimed blueprints live in a dict keyed by name; we model the dict's
iteration as a list of blueprints with pairwise-distinct names. -/

structure Blueprint where
  name : String
  requires : List String
  last : Bool
deriving DecidableEq, Repr

def findLast (bps : List Blueprint) : Option Blueprint :=
  bps.find? (fun b => b.last)

/-- The `(C.name, C.requires)` pairs handed to the graph. -/
def graphOf (bps : List Blueprint) : List (String × List String) :=
  bps.map (fun b => (b.name, b.requires))

/-- The graph after the `last` pin: an edge from `last.name` to every other
node, i.e. every other node is appended to `last.name`'s dependency list. -/
def addLastEdges (bps : List Blueprint) : List (String × List String) :=
  match findLast bps with
  | none => graphOf bps
  | some l =>
    (graphOf bps).map (fun p =>
      if p.1 = l.name then
        (p.1, p.2 ++ (bps.map Blueprint.name).filter (fun n => n != l.name))
      else p)

/-- Modelled from the spec: the Dependency Graph Resolver
(`celery.datastructures.DependencyGraph`, outside the embedded source file)
"accepts an iterable of (node, iterable-of-required-nodes) pairs ... and a
topological order operation that fails with a cycle error when no valid
order exists", where "the nodes are all claimed names".  `depsClear` says a
node's requirements are all already scheduled. -/
def depsClear (placed deps : List String) : Bool :=
  decide (∀ d ∈ deps, d ∈ placed)

/-- Modelled from the spec: pick the first pending node all of whose
requirements are already placed (ties broken by insertion order, per the
spec's determinism note). -/
def pickReady (placed : List String) :
    List (String × List String) → Option ((String × List String) × List (String × List String))
  | [] => none
  | p :: ps =>
    if depsClear placed p.2 then some (p, ps)
    else
      match pickReady placed ps with
      | none => none
      | some (q, rest) => some (q, p :: rest)

/-- Modelled from the spec: repeatedly schedule a ready node; when no node
is ready but some are pending there is a cycle and the sort fails. -/
def topsortAux : Nat → List (String × List String) → List String → Option (List String)
  | _, [], placed => some placed.reverse
  | 0, _ :: _, _ => none
  | fuel + 1, p :: ps, placed =>
    match pickReady placed (p :: ps) with
    | none => none
    | some (q, rest) => topsortAux fuel rest (q.1 :: placed)

/-- Modelled from the spec: the `topological order` operation; `none` is
the fatal cycle error. -/
def topsort (g : List (String × List String)) : Option (List String) :=
  topsortAux g.length g []

/-- Embedding of `Namespace._finalize_boot_steps`: resolve the boot order of the claimed
blueprints; `none` means `apply` aborts with a resolution error and no
`boot_steps` sequence is produced. -/
def finalizeBootSteps (bps : List Blueprint) : Option (List String) :=
  topsort (addLastEdges bps)

/-- An edge of the requires relation: some claimed blueprint named `x`
requires `y`. -/
def ReqEdge (bps : List Blueprint) (x y : String) : Prop :=
  ∃ b ∈ bps, b.name = x ∧ y ∈ b.requires

/-- The requires relation contains a cycle: a chain of requires edges from
some node back to itself. -/
def HasCycle (bps : List Blueprint) : Prop :=
  ∃ x ns, List.Chain (ReqEdge bps) x (ns ++ [x])

/-! ### Binding and inclusion (`Namespace.apply`, lines 150-157)

```
self.boot_steps = [self.bind_component(name, parent, **kwargs)
                        for name in self._finalize_boot_steps()]
for component in self.boot_steps:
    component.include(parent)
```

with `Component.include` returning true when `include_if(parent)` holds
(after storing `create`'s result in `obj`) and `StartStopComponent.include`
additionally appending the instance to `parent.components`:

```
def include(self, parent):            # Component
    if self.include_if(parent):
        self.obj = self.create(parent)
        return True

def include(self, parent):            # StartStopComponent
    if super(StartStopComponent, self).include(parent):
        parent.components.append(self)
```
-/

/-- A bound instance as seen by the inclusion loop: `startStop` records
whether it is a `StartStopComponent` (so its `include` appends to
`parent.components`), `includeIf` the value its `include_if(parent)`
predicate evaluates to during inclusion. -/
structure Bound where
  name : String
  startStop : Bool
  includeIf : Bool
deriving DecidableEq, Repr

/-- One step of the inclusion loop acting on `parent.components`. -/
def includeStep (acc : List Bound) (c : Bound) : List Bound :=
  if c.startStop && c.includeIf then acc ++ [c] else acc

/-- The inclusion loop of `apply`: fold `include(parent)` over `boot_steps`
starting from the parent's initial `components` list. -/
def applyInclude (steps : List Bound) (init : List Bound) : List Bound :=
  steps.foldl includeStep init

/-! ### The component metaclass (`ComponentType.__new__`)

```
def __new__(cls, name, bases, attrs):
    abstract = attrs.pop('abstract', False)
    if not abstract:
        try:
            cname = attrs['name']
        except KeyError:
            raise NotImplementedError('Components must be named')
        namespace = attrs.get('namespace', None)
        if not namespace:
            attrs['namespace'], _, attrs['name'] = cname.partition('.')
    cls = super(ComponentType, cls).__new__(cls, name, bases, attrs)
    if not abstract:
        Namespace._unclaimed[cls.namespace][cls.name] = cls
    return cls
```
-/

/-- Python's `str.partition('.')`: split at the first dot character
(code point 46); when there is no dot the result is `(s, "", "")`. -/
def pyPartitionDotAux : List Char → Option (List Char × List Char)
  | [] => none
  | c :: cs =>
    if c = Char.ofNat 46 then some ([], cs)
    else
      match pyPartitionDotAux cs with
      | none => none
      | some (pre, post) => some (c :: pre, post)

def pyPartitionDot (s : String) : String × String × String :=
  match pyPartitionDotAux s.data with
  | none => (s, "", "")
  | some (pre, post) => (String.mk pre, ".", String.mk post)

/-- The class attributes the metaclass inspects: whether `abstract` was
declared true in the class body (popped with default `False`), the declared
`name` attribute if any, and the declared `namespace` attribute if any
(field renamed `nspace`; `namespace` is a Lean keyword). -/
structure ClassAttrs where
  abstract : Bool
  name : Option String
  nspace : Option String
deriving DecidableEq, Repr

inductive NewOutcome where
  | notImplementedError
  | abstractClass
  | registered (nspace name : String)
deriving DecidableEq, Repr

/-- Embedding of `ComponentType.__new__` on a class declaration: abstract classes are
not registered; a missing `name` key raises `NotImplementedError`; a falsy
`namespace` (`None` or the empty string) makes both fields be taken from
`cname.partition('.')`; the class is registered under
`_unclaimed[namespace][name]`. -/
def componentNew (attrs : ClassAttrs) : NewOutcome :=
  if attrs.abstract then NewOutcome.abstractClass
  else
    match attrs.name with
    | none => NewOutcome.notImplementedError
    | some cname =>
      if attrs.nspace.getD "" = "" then
        let p := pyPartitionDot cname
        NewOutcome.registered p.1 p.2.2
      else NewOutcome.registered (attrs.nspace.getD "") cname

/-! ### Lifecycle lemmas -/

/-- The start loop touches only `started`: namespace state, the shutdown
signal and the socket timeout are unchanged. -/
theorem startAux_frame : ∀ (comps : List Component) (i : Nat) (w : World),
    (startAux comps i w).1.nstate = w.nstate ∧
      (startAux comps i w).1.shutdownComplete = w.shutdownComplete ∧
      (startAux comps i w).1.timeout = w.timeout
  | [], _, _ => ⟨rfl, rfl, rfl⟩
  | c :: cs, i, w => by
    rw [startAux]
    cases c.startExn with
    | some e => exact ⟨rfl, rfl, rfl⟩
    | none => simpa using startAux_frame cs (i + 1) { w with started := i + 1 }

/-- When no component start call raises, every component completes (in
list order) and `started` ends at the index past the final component. -/
theorem startAux_none : ∀ (comps : List Component) (i : Nat) (w : World),
    (startAux comps i w).2.2 = none →
    (startAux comps i w).2.1 = comps.map Component.name ∧
      (startAux comps i w).1.started = (if comps = [] then w.started else i + comps.length)
  | [], _, _ => by intro _; exact ⟨rfl, rfl⟩
  | c :: cs, i, w => by
    rw [startAux]
    cases c.startExn with
    | some e => intro h; cases h
    | none =>
      intro h
      simp only at h ⊢
      obtain ⟨hdone, hst⟩ := startAux_none cs (i + 1) { w with started := i + 1 } h
      refine ⟨by rw [hdone, List.map_cons], ?_⟩
      rw [hst]
      by_cases hcs : cs = []
      · subst hcs; simp
      · rw [if_neg hcs, if_neg (by simp)]
        cases hcs2 : cs with
        | nil => exact absurd hcs2 hcs
        | cons d ds => simp [List.length_cons]; omega

/-- When some component's start call raises: `started` was already bumped
past the completed ones (it equals completed + 1, counting the failing
call), and the propagated exception is exactly the one raised by the
component at the failing position. -/
theorem startAux_some : ∀ (comps : List Component) (i : Nat) (w : World) (e : String),
    (startAux comps i w).2.2 = some e →
    (startAux comps i w).1.started = i + (startAux comps i w).2.1.length + 1 ∧
      ∃ c, comps.get? (startAux comps i w).2.1.length = some c ∧ c.startExn = some e
  | [], _, _, _ => by intro h; cases h
  | c :: cs, i, w, e => by
    rw [startAux]
    cases hc : c.startExn with
    | some e2 =>
      intro h
      simp only at h
      cases h
      exact ⟨rfl, ⟨c, rfl, hc⟩⟩
    | none =>
      intro h
      simp only at h ⊢
      obtain ⟨hst, d, hd, hde⟩ := startAux_some cs (i + 1) { w with started := i + 1 } e h
      refine ⟨by rw [hst]; simp only [List.length_cons]; omega, d, by simpa using hd, hde⟩

theorem runStart_nstate (comps : List Component) (w : World) :
    (runStart comps w).1.nstate = RUN := by
  rw [runStart]
  exact (startAux_frame comps 0 _).1

theorem runStart_frame (comps : List Component) (w : World) :
    (runStart comps w).1.shutdownComplete = w.shutdownComplete ∧
      (runStart comps w).1.timeout = w.timeout := by
  rw [runStart]
  exact ⟨(startAux_frame comps 0 _).2.1, (startAux_frame comps 0 _).2.2⟩

theorem runStart_none (comps : List Component) (w : World)
    (h0 : w.started = 0) (h : (runStart comps w).2.2 = none) :
    (runStart comps w).2.1 = comps.map Component.name ∧
      (runStart comps w).1.started = comps.length := by
  rw [runStart] at h ⊢
  obtain ⟨hdone, hst⟩ := startAux_none comps 0 _ h
  refine ⟨hdone, ?_⟩
  rw [hst]
  by_cases hc : comps = []
  · subst hc; simpa using h0
  · rw [if_neg hc]; omega

theorem runStart_some (comps : List Component) (w : World) (e : String)
    (h : (runStart comps w).2.2 = some e) :
    (runStart comps w).1.started = (runStart comps w).2.1.length + 1 ∧
      ∃ c, comps.get? (runStart comps w).2.1.length = some c ∧ c.startExn = some e := by
  rw [runStart] at h ⊢
  obtain ⟨hst, hc⟩ := startAux_some comps 0 _ e h
  exact ⟨by rw [hst]; omega, hc⟩

/-- The idempotent-guard return path of `stop`: state already `CLOSE` or
`TERMINATE`.  Nothing happens except the unrestored timeout override. -/
theorem runStop_guard (t oc os : Bool) (comps : List Component) (w : World)
    (h : w.nstate = CLOSE ∨ w.nstate = TERMINATE) :
    runStop t oc os comps w = ({ w with timeout := some SHUTDOWN_SOCKET_TIMEOUT }, []) := by
  rw [runStop]
  simp only [if_pos h]

/-- The partially-started return path of `stop`: `close` runs, no component
stop/terminate call is made, state goes to `TERMINATE`, the signal fires,
and the timeout override is not restored. -/
theorem runStop_notFullyStarted (t oc os : Bool) (comps : List Component) (w : World)
    (hg : ¬(w.nstate = CLOSE ∨ w.nstate = TERMINATE))
    (hp : w.nstate ≠ RUN ∨ w.started ≠ comps.length) :
    runStop t oc os comps w =
      ({ w with timeout := some SHUTDOWN_SOCKET_TIMEOUT, nstate := TERMINATE, shutdownComplete := true },
        runClose oc comps) := by
  rw [runStop]
  simp only [if_neg hg, if_pos hp]

/-- The fully-started path of `stop`: `close` runs, every component is
stopped/terminated in reverse order, the `on_stopped` hook fires, state
goes to `TERMINATE`, the saved timeout is restored, the signal fires. -/
theorem runStop_full (t oc os : Bool) (comps : List Component) (w : World)
    (h1 : w.nstate = RUN) (h2 : w.started = comps.length) :
    runStop t oc os comps w =
      ({ w with nstate := TERMINATE, shutdownComplete := true },
        runClose oc comps
          ++ comps.reverse.map
              (fun c => if t then Event.terminateCall c.name else Event.stopCall c.name)
          ++ (if os then [Event.onStopped] else [])) := by
  rw [runStop]
  have hg : ¬(w.nstate = CLOSE ∨ w.nstate = TERMINATE) := by
    rw [h1]; decide
  have hp : ¬(w.nstate ≠ RUN ∨ w.started ≠ comps.length) := by
    push_neg
    exact ⟨h1, h2⟩
  simp only [if_neg hg, if_neg hp]

theorem stopCalls_append (a b : List Event) :
    stopCalls (a ++ b) = stopCalls a ++ stopCalls b := by
  rw [stopCalls, stopCalls, stopCalls, List.filterMap_append]

/-- The `close` pass never makes a component stop or terminate call. -/
theorem stopCalls_runClose (oc : Bool) (comps : List Component) :
    stopCalls (runClose oc comps) = [] := by
  rw [runClose, stopCalls, List.filterMap_append]
  have h1 : List.filterMap stopOrTerminateName (if oc then [Event.onClose] else []) = [] := by
    cases oc <;> rfl
  have h2 : ∀ cs : List Component,
      List.filterMap stopOrTerminateName
        (cs.filterMap (fun c => if c.hasClose then some (Event.closeCall c.name) else none))
        = [] := by
    intro cs
    induction cs with
    | nil => rfl
    | cons c cs ih =>
      rw [List.filterMap_cons]
      cases hcl : c.hasClose <;> simp only [if_pos, if_neg, Bool.false_eq_true] <;>
        simp [ih, stopOrTerminateName]
  rw [h1, h2, List.nil_append]

/-- The stop loop's calls, extracted by name. -/
theorem stopCalls_loop (t : Bool) (cs : List Component) :
    stopCalls (cs.map (fun c => if t then Event.terminateCall c.name else Event.stopCall c.name))
      = cs.map Component.name := by
  induction cs with
  | nil => rfl
  | cons c cs ih =>
    rw [List.map_cons, List.map_cons, stopCalls, List.filterMap_cons]
    cases t <;> simp only [if_pos, if_neg, Bool.false_eq_true] <;>
      simp [stopOrTerminateName, ← ih, stopCalls]

theorem stopCalls_onStopped (os : Bool) :
    stopCalls (if os then [Event.onStopped] else []) = [] := by
  cases os <;> rfl

/-! ### Claims about the lifecycle state machine -/

/-- Claim C1: if `Namespace.start` raised partway through the components
(so `started` differs from the number of components), a subsequent
`Namespace.stop` invokes no component's stop or terminate call, yet still
sets the namespace state to `TERMINATE` and sets the shutdown-complete
signal before returning. -/
theorem claim_c1 (t oc os : Bool) (comps : List Component) (w0 : World) (e : String)
    (hs : (runStart comps w0).2.2 = some e)
    (hp : (runStart comps w0).1.started ≠ comps.length) :
    (runStop t oc os comps (runStart comps w0).1).1.nstate = TERMINATE ∧
      (runStop t oc os comps (runStart comps w0).1).1.shutdownComplete = true ∧
      stopCalls (runStop t oc os comps (runStart comps w0).1).2 = [] := by
  have hn : (runStart comps w0).1.nstate = RUN := runStart_nstate comps w0
  have hg : ¬((runStart comps w0).1.nstate = CLOSE ∨ (runStart comps w0).1.nstate = TERMINATE) := by
    rw [hn]; decide
  rw [runStop_notFullyStarted t oc os comps _ hg (Or.inr hp)]
  exact ⟨rfl, rfl, stopCalls_runClose oc comps⟩

theorem claim_c1_witness :
    ((runStart [⟨"a", true, none⟩, ⟨"b", true, none⟩, ⟨"c", true, some "boom"⟩,
        ⟨"d", true, none⟩, ⟨"e", true, none⟩] ⟨UNSET, 0, false, none⟩).2.2 = some "boom") ∧
    ((runStart [⟨"a", true, none⟩, ⟨"b", true, none⟩, ⟨"c", true, some "boom"⟩,
        ⟨"d", true, none⟩, ⟨"e", true, none⟩] ⟨UNSET, 0, false, none⟩).1.started ≠
      ([⟨"a", true, none⟩, ⟨"b", true, none⟩, ⟨"c", true, some "boom"⟩,
        ⟨"d", true, none⟩, ⟨"e", true, none⟩] : List Component).length) ∧
    ((runStop false true true [⟨"a", true, none⟩, ⟨"b", true, none⟩, ⟨"c", true, some "boom"⟩,
        ⟨"d", true, none⟩, ⟨"e", true, none⟩]
        (runStart [⟨"a", true, none⟩, ⟨"b", true, none⟩, ⟨"c", true, some "boom"⟩,
          ⟨"d", true, none⟩, ⟨"e", true, none⟩] ⟨UNSET, 0, false, none⟩).1).1.nstate = TERMINATE ∧
      (runStop false true true [⟨"a", true, none⟩, ⟨"b", true, none⟩, ⟨"c", true, some "boom"⟩,
        ⟨"d", true, none⟩, ⟨"e", true, none⟩]
        (runStart [⟨"a", true, none⟩, ⟨"b", true, none⟩, ⟨"c", true, some "boom"⟩,
          ⟨"d", true, none⟩, ⟨"e", true, none⟩] ⟨UNSET, 0, false, none⟩).1).1.shutdownComplete = true ∧
      stopCalls (runStop false true true [⟨"a", true, none⟩, ⟨"b", true, none⟩,
        ⟨"c", true, some "boom"⟩, ⟨"d", true, none⟩, ⟨"e", true, none⟩]
        (runStart [⟨"a", true, none⟩, ⟨"b", true, none⟩, ⟨"c", true, some "boom"⟩,
          ⟨"d", true, none⟩, ⟨"e", true, none⟩] ⟨UNSET, 0, false, none⟩).1).2 = []) :=
  ⟨by decide, by decide,
    claim_c1 false true true _ ⟨UNSET, 0, false, none⟩ "boom" (by decide) (by decide)⟩

/-- Claim C2: after a fully successful `start`, one `stop` call (with or
without `terminate`) makes exactly the close calls, then each component's
stop (resp. terminate) call exactly once, in exactly the reverse of the
order in which `start` invoked them, then the `on_stopped` hook. -/
theorem claim_c2 (t oc os : Bool) (comps : List Component) (w0 : World)
    (h0 : w0.started = 0)
    (hs : (runStart comps w0).2.2 = none) :
    (runStart comps w0).2.1 = comps.map Component.name ∧
      (runStop t oc os comps (runStart comps w0).1).2 =
        runClose oc comps
          ++ comps.reverse.map
              (fun c => if t then Event.terminateCall c.name else Event.stopCall c.name)
          ++ (if os then [Event.onStopped] else []) ∧
      stopCalls (runStop t oc os comps (runStart comps w0).1).2 =
        ((runStart comps w0).2.1).reverse ∧
      (((runStart comps w0).2.1).Nodup →
        ∀ n ∈ (runStart comps w0).2.1,
          (stopCalls (runStop t oc os comps (runStart comps w0).1).2).count n = 1) := by
  obtain ⟨hdone, hlen⟩ := runStart_none comps w0 h0 hs
  have hn : (runStart comps w0).1.nstate = RUN := runStart_nstate comps w0
  rw [runStop_full t oc os comps _ hn hlen]
  have htr : stopCalls
      (runClose oc comps
        ++ comps.reverse.map
            (fun c => if t then Event.terminateCall c.name else Event.stopCall c.name)
        ++ (if os then [Event.onStopped] else [])) = ((runStart comps w0).2.1).reverse := by
    rw [stopCalls_append, stopCalls_append, stopCalls_runClose, stopCalls_loop,
      stopCalls_onStopped, hdone, List.map_reverse]
    simp
  refine ⟨hdone, rfl, htr, ?_⟩
  intro hnd n hmem
  rw [htr, List.count_reverse]
  exact List.count_eq_one_of_mem hnd hmem

theorem claim_c2_witness :
    ((⟨UNSET, 0, false, none⟩ : World).started = 0) ∧
    ((runStart [⟨"a", true, none⟩, ⟨"b", false, none⟩] ⟨UNSET, 0, false, none⟩).2.2 = none) ∧
    ((runStart [⟨"a", true, none⟩, ⟨"b", false, none⟩] ⟨UNSET, 0, false, none⟩).2.1 = ["a", "b"] ∧
      (runStop false true true [⟨"a", true, none⟩, ⟨"b", false, none⟩]
        (runStart [⟨"a", true, none⟩, ⟨"b", false, none⟩] ⟨UNSET, 0, false, none⟩).1).2 =
        runClose true [⟨"a", true, none⟩, ⟨"b", false, none⟩]
          ++ ([⟨"a", true, none⟩, ⟨"b", false, none⟩] : List Component).reverse.map
              (fun c => if false then Event.terminateCall c.name else Event.stopCall c.name)
          ++ (if true then [Event.onStopped] else []) ∧
      stopCalls (runStop false true true [⟨"a", true, none⟩, ⟨"b", false, none⟩]
        (runStart [⟨"a", true, none⟩, ⟨"b", false, none⟩] ⟨UNSET, 0, false, none⟩).1).2 =
        (["a", "b"] : List String).reverse ∧
      ((["a", "b"] : List String).Nodup →
        ∀ n ∈ (["a", "b"] : List String),
          (stopCalls (runStop false true true [⟨"a", true, none⟩, ⟨"b", false, none⟩]
            (runStart [⟨"a", true, none⟩, ⟨"b", false, none⟩] ⟨UNSET, 0, false, none⟩).1).2).count n
            = 1)) := by
  have h := claim_c2 false true true [⟨"a", true, none⟩, ⟨"b", false, none⟩]
    ⟨UNSET, 0, false, none⟩ rfl (by decide)
  have hd : (runStart [⟨"a", true, none⟩, ⟨"b", false, none⟩]
      ⟨UNSET, 0, false, none⟩).2.1 = ["a", "b"] := by decide
  rw [hd] at h
  exact ⟨rfl, by decide, h⟩

/-- Claim C10: if `start` raises while invoking the start call of the final
component, `started` already equals the number of components, so a
subsequent `stop` takes the fully-started path: it stops (or terminates)
every component in reverse order, including the one whose start failed. -/
theorem claim_c10 (t oc os : Bool) (comps : List Component) (w0 : World) (e : String)
    (hs : (runStart comps w0).2.2 = some e)
    (hp : (runStart comps w0).1.started = comps.length) :
    stopCalls (runStop t oc os comps (runStart comps w0).1).2 =
        (comps.map Component.name).reverse ∧
      (runStop t oc os comps (runStart comps w0).1).1.nstate = TERMINATE ∧
      (runStop t oc os comps (runStart comps w0).1).1.shutdownComplete = true ∧
      ∃ c, comps.get? (runStart comps w0).2.1.length = some c ∧ c.startExn = some e ∧
        c.name ∈ stopCalls (runStop t oc os comps (runStart comps w0).1).2 := by
  have hn : (runStart comps w0).1.nstate = RUN := runStart_nstate comps w0
  rw [runStop_full t oc os comps _ hn hp]
  have htr : stopCalls
      (runClose oc comps
        ++ comps.reverse.map
            (fun c => if t then Event.terminateCall c.name else Event.stopCall c.name)
        ++ (if os then [Event.onStopped] else [])) = (comps.map Component.name).reverse := by
    rw [stopCalls_append, stopCalls_append, stopCalls_runClose, stopCalls_loop,
      stopCalls_onStopped, List.map_reverse]
    simp
  obtain ⟨_, c, hc, hce⟩ := runStart_some comps w0 e hs
  refine ⟨htr, rfl, rfl, c, hc, hce, ?_⟩
  rw [htr]
  have hcm : c ∈ comps := by
    have := List.get?_mem hc
    exact this
  exact List.mem_reverse.2 (List.mem_map.2 ⟨c, hcm, rfl⟩)

theorem claim_c10_witness :
    ((runStart [⟨"a", true, none⟩, ⟨"b", true, some "boom"⟩] ⟨UNSET, 0, false, none⟩).2.2 =
        some "boom") ∧
    ((runStart [⟨"a", true, none⟩, ⟨"b", true, some "boom"⟩] ⟨UNSET, 0, false, none⟩).1.started =
        ([⟨"a", true, none⟩, ⟨"b", true, some "boom"⟩] : List Component).length) ∧
    (stopCalls (runStop false true true [⟨"a", true, none⟩, ⟨"b", true, some "boom"⟩]
        (runStart [⟨"a", true, none⟩, ⟨"b", true, some "boom"⟩]
          ⟨UNSET, 0, false, none⟩).1).2 =
        (([⟨"a", true, none⟩, ⟨"b", true, some "boom"⟩] : List Component).map
          Component.name).reverse ∧
      (runStop false true true [⟨"a", true, none⟩, ⟨"b", true, some "boom"⟩]
        (runStart [⟨"a", true, none⟩, ⟨"b", true, some "boom"⟩]
          ⟨UNSET, 0, false, none⟩).1).1.nstate = TERMINATE ∧
      (runStop false true true [⟨"a", true, none⟩, ⟨"b", true, some "boom"⟩]
        (runStart [⟨"a", true, none⟩, ⟨"b", true, some "boom"⟩]
          ⟨UNSET, 0, false, none⟩).1).1.shutdownComplete = true ∧
      ∃ c, ([⟨"a", true, none⟩, ⟨"b", true, some "boom"⟩] : List Component).get?
          (runStart [⟨"a", true, none⟩, ⟨"b", true, some "boom"⟩]
            ⟨UNSET, 0, false, none⟩).2.1.length = some c ∧ c.startExn = some "boom" ∧
        c.name ∈ stopCalls (runStop false true true [⟨"a", true, none⟩, ⟨"b", true, some "boom"⟩]
          (runStart [⟨"a", true, none⟩, ⟨"b", true, some "boom"⟩]
            ⟨UNSET, 0, false, none⟩).1).2) :=
  ⟨by decide, by decide,
    claim_c10 false true true _ ⟨UNSET, 0, false, none⟩ "boom" (by decide) (by decide)⟩

/-- Claim C3, counterexample: `stop` does NOT restore the prior default
socket timeout on every return path.  On a namespace that was never
started (state unset, no components) the partially-started return path is
taken and the default timeout, previously `None`, is left at the 5-second
override after `stop` returns. -/
theorem claim_c3_counterexample :
    (⟨UNSET, 0, false, none⟩ : World).timeout = none ∧
      (runStop false false false [] ⟨UNSET, 0, false, none⟩).1.timeout =
        some SHUTDOWN_SOCKET_TIMEOUT ∧
      some SHUTDOWN_SOCKET_TIMEOUT ≠ (none : Option ℚ) := by decide

/-- Claim C3, amended: `stop` saves the process-wide default socket
timeout and overrides it to 5 seconds on entry; the saved value is
restored only on the fully-started path (state `RUN` and `started` equal
to the number of components) that runs the component stop loop; on the
idempotent-guard and partially-started return paths the 5-second override
is left in place. -/
theorem claim_c3_amended (t oc os : Bool) (comps : List Component) (w : World) :
    (runStop t oc os comps w).1.timeout =
      if w.nstate = RUN ∧ w.started = comps.length then w.timeout
      else some SHUTDOWN_SOCKET_TIMEOUT := by
  by_cases h : w.nstate = RUN ∧ w.started = comps.length
  · rw [if_pos h, runStop_full t oc os comps w h.1 h.2]
  · rw [if_neg h]
    by_cases hg : w.nstate = CLOSE ∨ w.nstate = TERMINATE
    · rw [runStop_guard t oc os comps w hg]
    · have hp : w.nstate ≠ RUN ∨ w.started ≠ comps.length := by
        rcases Decidable.not_and_iff_or_not.1 h with h1 | h1
        · exact Or.inl h1
        · exact Or.inr h1
      rw [runStop_notFullyStarted t oc os comps w hg hp]

/-- Claim C4, counterexample: a second `stop` after a first completed call
is NOT observably a no-op: the first (fully-started) call restores the
default socket timeout to its prior value `None`, and the second call
overwrites it to 5 seconds and returns without restoring it. -/
theorem claim_c4_counterexample :
    ((runStop false false false [⟨"a", true, none⟩] ⟨RUN, 1, false, none⟩).1.timeout = none) ∧
      ((runStop false false false [⟨"a", true, none⟩]
          (runStop false false false [⟨"a", true, none⟩] ⟨RUN, 1, false, none⟩).1).1.timeout =
        some SHUTDOWN_SOCKET_TIMEOUT) ∧
      (runStop false false false [⟨"a", true, none⟩]
          (runStop false false false [⟨"a", true, none⟩] ⟨RUN, 1, false, none⟩).1).1.timeout ≠
        (runStop false false false [⟨"a", true, none⟩] ⟨RUN, 1, false, none⟩).1.timeout := by
  decide

/-- Claim C4, amended: after a first completed `stop` on a fully-started
namespace (which leaves state `TERMINATE`), a second `stop` call makes no
component stop/terminate/close call and leaves state, `started` and the
shutdown signal unchanged — but it does overwrite the process-wide default
socket timeout to the 5-second value without restoring it. -/
theorem claim_c4_amended (t t2 oc os : Bool) (comps : List Component) (w : World)
    (h1 : w.nstate = RUN) (h2 : w.started = comps.length) :
    (runStop t oc os comps w).1.nstate = TERMINATE ∧
      runStop t2 oc os comps (runStop t oc os comps w).1 =
        ({ (runStop t oc os comps w).1 with timeout := some SHUTDOWN_SOCKET_TIMEOUT }, []) := by
  have hfull := runStop_full t oc os comps w h1 h2
  have hterm : (runStop t oc os comps w).1.nstate = TERMINATE := by rw [hfull]
  exact ⟨hterm, runStop_guard t2 oc os comps _ (Or.inr hterm)⟩

theorem claim_c4_amended_witness :
    ((⟨RUN, 1, false, none⟩ : World).nstate = RUN) ∧
      ((⟨RUN, 1, false, none⟩ : World).started =
        ([⟨"a", true, none⟩] : List Component).length) ∧
      ((runStop false false false [⟨"a", true, none⟩] ⟨RUN, 1, false, none⟩).1.nstate =
          TERMINATE ∧
        runStop false false false [⟨"a", true, none⟩]
            (runStop false false false [⟨"a", true, none⟩] ⟨RUN, 1, false, none⟩).1 =
          ({ (runStop false false false [⟨"a", true, none⟩] ⟨RUN, 1, false, none⟩).1 with
              timeout := some SHUTDOWN_SOCKET_TIMEOUT }, [])) :=
  ⟨rfl, rfl, claim_c4_amended false false false false [⟨"a", true, none⟩]
    ⟨RUN, 1, false, none⟩ rfl rfl⟩

/-- Claim C5, counterexample: when a component's start call raises, the
`started` counter does NOT equal the number of components whose start call
actually completed — it is one greater, because `started = i + 1` is
recorded before the risky call.  With a single component whose start
raises, zero start calls completed but `started` is 1. -/
theorem claim_c5_counterexample :
    ((runStart [⟨"a", true, some "boom"⟩] ⟨UNSET, 0, false, none⟩).2.2 = some "boom") ∧
      ((runStart [⟨"a", true, some "boom"⟩] ⟨UNSET, 0, false, none⟩).1.started = 1) ∧
      ((runStart [⟨"a", true, some "boom"⟩] ⟨UNSET, 0, false, none⟩).2.1.length = 0) ∧
      (1 : Nat) ≠ 0 := by decide

/-- Claim C5, amended: if a component's start call raises during
`Namespace.start`, the exception propagates unmodified to the caller (it
is exactly the exception of the component at the failing position), the
namespace state remains `RUN`, and `started` equals the number of
completed start calls PLUS ONE (it counts the failing call, having been
recorded before the call was made). -/
theorem claim_c5_amended (comps : List Component) (w0 : World) (e : String)
    (hs : (runStart comps w0).2.2 = some e) :
    (runStart comps w0).1.nstate = RUN ∧
      (runStart comps w0).1.started = (runStart comps w0).2.1.length + 1 ∧
      ∃ c, comps.get? (runStart comps w0).2.1.length = some c ∧ c.startExn = some e := by
  obtain ⟨hst, hc⟩ := runStart_some comps w0 e hs
  exact ⟨runStart_nstate comps w0, hst, hc⟩

theorem claim_c5_amended_witness :
    ((runStart [⟨"a", true, none⟩, ⟨"b", true, some "boom"⟩, ⟨"c", true, none⟩]
        ⟨UNSET, 0, false, none⟩).2.2 = some "boom") ∧
      ((runStart [⟨"a", true, none⟩, ⟨"b", true, some "boom"⟩, ⟨"c", true, none⟩]
          ⟨UNSET, 0, false, none⟩).1.nstate = RUN ∧
        (runStart [⟨"a", true, none⟩, ⟨"b", true, some "boom"⟩, ⟨"c", true, none⟩]
            ⟨UNSET, 0, false, none⟩).1.started =
          (runStart [⟨"a", true, none⟩, ⟨"b", true, some "boom"⟩, ⟨"c", true, none⟩]
            ⟨UNSET, 0, false, none⟩).2.1.length + 1 ∧
        ∃ c, ([⟨"a", true, none⟩, ⟨"b", true, some "boom"⟩, ⟨"c", true, none⟩] :
            List Component).get?
            (runStart [⟨"a", true, none⟩, ⟨"b", true, some "boom"⟩, ⟨"c", true, none⟩]
              ⟨UNSET, 0, false, none⟩).2.1.length = some c ∧ c.startExn = some "boom") :=
  ⟨by decide, claim_c5_amended [⟨"a", true, none⟩, ⟨"b", true, some "boom"⟩, ⟨"c", true, none⟩]
    ⟨UNSET, 0, false, none⟩ "boom" (by decide)⟩

/-! ### Dependency-resolution lemmas -/

/-- In an association list with pairwise-distinct keys, a key determines
its dependency list. -/
theorem snd_eq_of_fst_nodup {l : List (String × List String)} {a : String}
    {b c : List String} (hd : (l.map Prod.fst).Nodup)
    (hb : (a, b) ∈ l) (hc : (a, c) ∈ l) : b = c := by
  induction l with
  | nil => cases hb
  | cons q t ih =>
    rw [List.map_cons, List.nodup_cons] at hd
    rcases List.mem_cons.1 hb with hb1 | hb1 <;> rcases List.mem_cons.1 hc with hc1 | hc1
    · have h12 : (a, b) = (a, c) := by rw [hb1, ← hc1]
      injection h12 with h1 h2
    · exfalso
      apply hd.1
      rw [← hb1]
      exact List.mem_map.2 ⟨(a, c), hc1, rfl⟩
    · exfalso
      apply hd.1
      rw [← hc1]
      exact List.mem_map.2 ⟨(a, b), hb1, rfl⟩
    · exact ih hd.2 hb1 hc1

theorem depsClear_mem {placed deps : List String} (h : depsClear placed deps = true) :
    ∀ d ∈ deps, d ∈ placed :=
  of_decide_eq_true h

/-- Picking a ready entry splits its input around the picked entry. -/
theorem pickReady_split (placed : List String) :
    ∀ (pending : List (String × List String)) (p : String × List String)
      (rest : List (String × List String)),
      pickReady placed pending = some (p, rest) →
      ∃ l1 l2, pending = l1 ++ p :: l2 ∧ rest = l1 ++ l2 ∧ depsClear placed p.2 = true
  | [], p, rest => by intro h; cases h
  | q :: ps, p, rest => by
    intro h
    rw [pickReady] at h
    by_cases hd : depsClear placed q.2
    · rw [if_pos hd] at h
      simp only [Option.some.injEq, Prod.mk.injEq] at h
      obtain ⟨rfl, rfl⟩ := h
      exact ⟨[], ps, rfl, rfl, hd⟩
    · rw [if_neg hd] at h
      cases hrec : pickReady placed ps with
      | none => rw [hrec] at h; cases h
      | some qr =>
        obtain ⟨p2, rest2⟩ := qr
        rw [hrec] at h
        simp only [Option.some.injEq, Prod.mk.injEq] at h
        obtain ⟨h1, h2⟩ := h
        obtain ⟨l1, l2, hpe, hre, hdc⟩ := pickReady_split placed ps p2 rest2 hrec
        refine ⟨q :: l1, l2, ?_, ?_, ?_⟩
        · rw [List.cons_append, ← h1, ← hpe]
        · rw [← h2, hre, List.cons_append]
        · rw [← h1]; exact hdc

theorem topsortAux_nil (fuel : Nat) (placed : List String) :
    topsortAux fuel [] placed = some placed.reverse := by
  cases fuel <;> rfl

theorem topsortAux_zero (p : String × List String) (ps : List (String × List String))
    (placed : List String) : topsortAux 0 (p :: ps) placed = none := rfl

theorem topsortAux_succ (fuel : Nat) (p : String × List String)
    (ps : List (String × List String)) (placed : List String) :
    topsortAux (fuel + 1) (p :: ps) placed =
      match pickReady placed (p :: ps) with
      | none => none
      | some (q, rest) => topsortAux fuel rest (q.1 :: placed) := rfl

/-- A successful sort extends the already-placed prefix by a permutation
of the pending node names. -/
theorem topsortAux_shape : ∀ (fuel : Nat) (pending : List (String × List String))
    (placed ord : List String),
    topsortAux fuel pending placed = some ord →
    ∃ suffix, ord = placed.reverse ++ suffix ∧ List.Perm suffix (pending.map Prod.fst) := by
  intro fuel
  induction fuel with
  | zero =>
    intro pending placed ord h
    cases pending with
    | nil =>
      rw [topsortAux_nil] at h
      exact ⟨[], by rw [← Option.some.inj h, List.append_nil], List.Perm.refl []⟩
    | cons p ps => rw [topsortAux_zero] at h; cases h
  | succ fuel ih =>
    intro pending placed ord h
    cases pending with
    | nil =>
      rw [topsortAux_nil] at h
      exact ⟨[], by rw [← Option.some.inj h, List.append_nil], List.Perm.refl []⟩
    | cons p ps =>
      rw [topsortAux_succ] at h
      cases hpr : pickReady placed (p :: ps) with
      | none => rw [hpr] at h; cases h
      | some qr =>
        obtain ⟨q, rest⟩ := qr
        rw [hpr] at h
        obtain ⟨suffix, hso, hsp⟩ := ih rest (q.1 :: placed) ord h
        obtain ⟨l1, l2, hpe, hre, _⟩ := pickReady_split placed (p :: ps) q rest hpr
        refine ⟨q.1 :: suffix, ?_, ?_⟩
        · rw [hso, List.reverse_cons, List.append_assoc, List.singleton_append]
        · have hk : (p :: ps).map Prod.fst =
              l1.map Prod.fst ++ q.1 :: l2.map Prod.fst := by
            rw [hpe, List.map_append, List.map_cons]
          rw [hk]
          have hrk : rest.map Prod.fst = l1.map Prod.fst ++ l2.map Prod.fst := by
            rw [hre, List.map_append]
          exact ((hsp.trans (hrk ▸ List.Perm.refl _)).cons q.1).trans List.perm_middle.symm

/-- If some pending node's dependency list contains every name in `others`,
the pending keys are among `{lname} ∪ others`, the keys are distinct and
disjoint from `placed`, then a successful sort must schedule `lname`
last. -/
theorem topsortAux_last (lname : String) (others : List String) :
    ∀ (fuel : Nat) (pending : List (String × List String)) (placed ord : List String),
      topsortAux fuel pending placed = some ord →
      (∃ deps, (lname, deps) ∈ pending ∧ ∀ n ∈ others, n ∈ deps) →
      ((pending.map Prod.fst).Nodup) →
      (∀ q ∈ pending, q.1 = lname ∨ q.1 ∈ others) →
      (∀ x ∈ placed, x ∉ pending.map Prod.fst) →
      ord.getLast? = some lname := by
  intro fuel
  induction fuel with
  | zero =>
    intro pending placed ord h hI1 hI2 hI4 hI3
    cases pending with
    | nil => obtain ⟨deps, hmem, _⟩ := hI1; cases hmem
    | cons p ps => rw [topsortAux_zero] at h; cases h
  | succ fuel ih =>
    intro pending placed ord h hI1 hI2 hI4 hI3
    cases pending with
    | nil => obtain ⟨deps, hmem, _⟩ := hI1; cases hmem
    | cons p ps =>
      rw [topsortAux_succ] at h
      cases hpr : pickReady placed (p :: ps) with
      | none => rw [hpr] at h; cases h
      | some qr =>
        obtain ⟨q, rest⟩ := qr
        rw [hpr] at h
        obtain ⟨l1, l2, hpe, hre, hdc⟩ := pickReady_split placed (p :: ps) q rest hpr
        obtain ⟨deps, hmem, hsub⟩ := hI1
        have hqmem : q ∈ p :: ps := by
          rw [hpe]; exact List.mem_append_right _ (List.mem_cons_self q l2)
        have hrest_sub : ∀ r ∈ rest, r ∈ p :: ps := by
          intro r hr
          rw [hre] at hr
          rw [hpe]
          rcases List.mem_append.1 hr with h1 | h1
          · exact List.mem_append_left _ h1
          · exact List.mem_append_right _ (List.mem_cons_of_mem _ h1)
        have hkeys : List.Perm ((p :: ps).map Prod.fst) (q.1 :: rest.map Prod.fst) := by
          rw [hpe, hre, List.map_append, List.map_cons, List.map_append]
          exact List.perm_middle
        have hcons_nodup : (q.1 :: rest.map Prod.fst).Nodup := hkeys.nodup_iff.1 hI2
        have hrest_nodup : (rest.map Prod.fst).Nodup := hcons_nodup.of_cons
        have hq1_notin : q.1 ∉ rest.map Prod.fst := (List.nodup_cons.1 hcons_nodup).1
        by_cases hql : q.1 = lname
        · have hq_pair : (q.1, q.2) ∈ p :: ps := hqmem
          rw [hql] at hq_pair
          have hdeps_eq : deps = q.2 := snd_eq_of_fst_nodup hI2 hmem hq_pair
          have hothers_placed : ∀ n ∈ others, n ∈ placed := by
            intro n hn
            exact depsClear_mem hdc n (hdeps_eq ▸ hsub n hn)
          have hrest_nil : rest = [] := by
            cases hrn : rest with
            | nil => rfl
            | cons r rs =>
              exfalso
              have hrmem : r ∈ rest := by rw [hrn]; exact List.mem_cons_self r rs
              have hr_pending : r ∈ p :: ps := hrest_sub r hrmem
              have hrl : r.1 ≠ lname := by
                intro hh
                apply hq1_notin
                rw [hql, ← hh]
                exact List.mem_map.2 ⟨r, hrmem, rfl⟩
              rcases hI4 r hr_pending with h1 | h1
              · exact hrl h1
              · exact hI3 r.1 (hothers_placed r.1 h1) (List.mem_map.2 ⟨r, hr_pending, rfl⟩)
          have hfin : topsortAux fuel rest (q.1 :: placed) = some ord := h
          rw [hrest_nil, topsortAux_nil] at hfin
          rw [← Option.some.inj hfin, List.reverse_cons, hql, List.getLast?_concat]
        · apply ih rest (q.1 :: placed) ord h
          · refine ⟨deps, ?_, hsub⟩
            rw [hpe] at hmem
            rw [hre]
            rcases List.mem_append.1 hmem with h1 | h1
            · exact List.mem_append_left _ h1
            · rcases List.mem_cons.1 h1 with h2 | h2
              · exfalso; apply hql; rw [← h2]
              · exact List.mem_append_right _ h2
          · exact hrest_nodup
          · intro r hr; exact hI4 r (hrest_sub r hr)
          · intro x hx
            rcases List.mem_cons.1 hx with h1 | h1
            · rw [h1]; exact hq1_notin
            · intro hcon
              obtain ⟨r, hr, hrx⟩ := List.mem_map.1 hcon
              exact hI3 x h1 (List.mem_map.2 ⟨r, hrest_sub r hr, hrx⟩)

/-- A nonempty set of nodes each of which requires another node of the set
can never be scheduled: the sort fails. -/
theorem topsortAux_cycle (S : List String) (hS : S ≠ []) :
    ∀ (fuel : Nat) (pending : List (String × List String)) (placed : List String),
      (∀ a ∈ S, ∃ deps b, (a, deps) ∈ pending ∧ b ∈ S ∧ b ∈ deps) →
      (∀ a ∈ S, a ∉ placed) →
      ((pending.map Prod.fst).Nodup) →
      topsortAux fuel pending placed = none := by
  intro fuel
  induction fuel with
  | zero =>
    intro pending placed hent hpl hnd
    cases pending with
    | nil =>
      obtain ⟨a, ha⟩ := List.exists_mem_of_ne_nil S hS
      obtain ⟨deps, b, hmem, _, _⟩ := hent a ha
      cases hmem
    | cons p ps => rw [topsortAux_zero]
  | succ fuel ih =>
    intro pending placed hent hpl hnd
    cases pending with
    | nil =>
      obtain ⟨a, ha⟩ := List.exists_mem_of_ne_nil S hS
      obtain ⟨deps, b, hmem, _, _⟩ := hent a ha
      cases hmem
    | cons p ps =>
      rw [topsortAux_succ]
      cases hpr : pickReady placed (p :: ps) with
      | none => rfl
      | some qr =>
        obtain ⟨q, rest⟩ := qr
        simp only
        obtain ⟨l1, l2, hpe, hre, hdc⟩ := pickReady_split placed (p :: ps) q rest hpr
        have hqmem : q ∈ p :: ps := by
          rw [hpe]; exact List.mem_append_right _ (List.mem_cons_self q l2)
        have hrest_sub : ∀ r ∈ rest, r ∈ p :: ps := by
          intro r hr
          rw [hre] at hr
          rw [hpe]
          rcases List.mem_append.1 hr with h1 | h1
          · exact List.mem_append_left _ h1
          · exact List.mem_append_right _ (List.mem_cons_of_mem _ h1)
        have hkeys : List.Perm ((p :: ps).map Prod.fst) (q.1 :: rest.map Prod.fst) := by
          rw [hpe, hre, List.map_append, List.map_cons, List.map_append]
          exact List.perm_middle
        have hcons_nodup : (q.1 :: rest.map Prod.fst).Nodup := hkeys.nodup_iff.1 hnd
        have hrest_nodup : (rest.map Prod.fst).Nodup := hcons_nodup.of_cons
        have hq1_notin : q.1 ∉ rest.map Prod.fst := (List.nodup_cons.1 hcons_nodup).1
        have hq_not_S : q.1 ∉ S := by
          intro hq
          obtain ⟨deps, b, hmem, hbS, hbd⟩ := hent q.1 hq
          have hq_pair : (q.1, q.2) ∈ p :: ps := hqmem
          have hdeps_eq : deps = q.2 := snd_eq_of_fst_nodup hnd hmem hq_pair
          exact hpl b hbS (depsClear_mem hdc b (hdeps_eq ▸ hbd))
        apply ih rest (q.1 :: placed)
        · intro a ha
          obtain ⟨deps, b, hmem, hbS, hbd⟩ := hent a ha
          refine ⟨deps, b, ?_, hbS, hbd⟩
          rw [hpe] at hmem
          rw [hre]
          rcases List.mem_append.1 hmem with h1 | h1
          · exact List.mem_append_left _ h1
          · rcases List.mem_cons.1 h1 with h2 | h2
            · exfalso
              apply hq_not_S
              have : a = q.1 := by rw [← h2]
              rw [← this]
              exact ha
            · exact List.mem_append_right _ h2
        · intro a ha hmem2
          rcases List.mem_cons.1 hmem2 with h1 | h1
          · apply hq_not_S; rw [← h1]; exact ha
          · exact hpl a ha h1
        · exact hrest_nodup

/-- Every element of a chain except the final one is related to some later
chain element. -/
theorem chain_next {R : String → String → Prop} :
    ∀ (l : List String) (x : String), List.Chain R x l →
      ∀ a ∈ x :: l, (∃ b ∈ l, R a b) ∨ a = (x :: l).getLast (List.cons_ne_nil x l)
  | [], x => by
    intro _ a ha
    rcases List.mem_cons.1 ha with h1 | h1
    · exact Or.inr h1
    · cases h1
  | y :: t, x => by
    intro hch a ha
    obtain ⟨hxy, hch2⟩ := List.chain_cons.1 hch
    rcases List.mem_cons.1 ha with h1 | h1
    · exact Or.inl ⟨y, List.mem_cons_self y t, h1 ▸ hxy⟩
    · rcases chain_next t y hch2 a h1 with ⟨b, hb, hr⟩ | h2
      · exact Or.inl ⟨b, List.mem_cons_of_mem y hb, hr⟩
      · refine Or.inr ?_
        rw [h2, List.getLast_cons (List.cons_ne_nil y t)]

/-- The first element of a nonempty chain is related to the chain's head. -/
theorem chain_head {R : String → String → Prop} {x y : String} {t : List String}
    (h : List.Chain R x (y :: t)) : R x y :=
  (List.chain_cons.1 h).1

/-- A requires-cycle yields a nonempty set of nodes each of which has an
edge to a node of the set. -/
theorem cycle_closed {R : String → String → Prop} (x : String) (ns : List String)
    (h : List.Chain R x (ns ++ [x])) :
    ∃ S : List String, S ≠ [] ∧ ∀ a ∈ S, ∃ b ∈ S, R a b := by
  refine ⟨x :: (ns ++ [x]), List.cons_ne_nil x (ns ++ [x]), ?_⟩
  intro a ha
  rcases chain_next (ns ++ [x]) x h a ha with ⟨b, hb, hr⟩ | heq
  · exact ⟨b, List.mem_cons_of_mem x hb, hr⟩
  · have hglast : (x :: (ns ++ [x])).getLast (List.cons_ne_nil x (ns ++ [x])) = x := by
      have hform : x :: (ns ++ [x]) = (x :: ns) ++ [x] := by
        rw [List.cons_append]
      rw [List.getLast_congr _ _ hform, List.getLast_concat]
    rw [heq, hglast]
    cases hnsx : ns ++ [x] with
    | nil => exact absurd hnsx (by simp)
    | cons h1 t1 =>
      exact ⟨h1, List.mem_cons_of_mem x (List.mem_cons_self h1 t1), chain_head (hnsx ▸ h)⟩

theorem graphOf_keys (bps : List Blueprint) :
    (graphOf bps).map Prod.fst = bps.map Blueprint.name := by
  induction bps with
  | nil => rfl
  | cons b bs ih => rw [graphOf] at ih ⊢; rw [List.map_cons, List.map_cons, List.map_cons, ih]

theorem addLastEdges_none (bps : List Blueprint) (h : findLast bps = none) :
    addLastEdges bps = graphOf bps := by
  unfold addLastEdges
  rw [h]

theorem addLastEdges_some (bps : List Blueprint) (l : Blueprint)
    (h : findLast bps = some l) :
    addLastEdges bps =
      (graphOf bps).map (fun p =>
        if p.1 = l.name then
          (p.1, p.2 ++ (bps.map Blueprint.name).filter (fun n => n != l.name))
        else p) := by
  unfold addLastEdges
  rw [h]

theorem map_fst_pin (lname : String) (extra : List String) :
    ∀ g : List (String × List String),
      (g.map (fun p => if p.1 = lname then (p.1, p.2 ++ extra) else p)).map Prod.fst =
        g.map Prod.fst
  | [] => rfl
  | p :: ps => by
    rw [List.map_cons, List.map_cons, List.map_cons, map_fst_pin lname extra ps]
    congr 1
    by_cases hp : p.1 = lname
    · rw [if_pos hp]
    · rw [if_neg hp]

/-- The `last` pin only extends dependency lists; the node set (keys) is
unchanged. -/
theorem addLastEdges_keys (bps : List Blueprint) :
    (addLastEdges bps).map Prod.fst = bps.map Blueprint.name := by
  cases hf : findLast bps with
  | none => rw [addLastEdges_none bps hf]; exact graphOf_keys bps
  | some l => rw [addLastEdges_some bps l hf, map_fst_pin, graphOf_keys]

/-- The `last` pin preserves each entry's key and only extends its
dependency list. -/
theorem addLastEdges_mono (bps : List Blueprint) (x : String) (d : List String)
    (h : (x, d) ∈ graphOf bps) :
    ∃ d2, (x, d2) ∈ addLastEdges bps ∧ ∀ y ∈ d, y ∈ d2 := by
  cases hf : findLast bps with
  | none => rw [addLastEdges_none bps hf]; exact ⟨d, h, fun y hy => hy⟩
  | some l =>
    rw [addLastEdges_some bps l hf]
    by_cases hx : x = l.name
    · refine ⟨d ++ (bps.map Blueprint.name).filter (fun n => n != l.name),
        List.mem_map.2 ⟨(x, d), h, by simp [hx]⟩,
        fun y hy => List.mem_append_left _ hy⟩
    · exact ⟨d, List.mem_map.2 ⟨(x, d), h, by simp [hx]⟩, fun y hy => hy⟩

/-- The pinned blueprint's entry in the final graph requires every other
claimed name. -/
theorem addLastEdges_last_entry (bps : List Blueprint) (l : Blueprint)
    (h : findLast bps = some l) (hmem : l ∈ bps) :
    (l.name, l.requires ++ (bps.map Blueprint.name).filter (fun n => n != l.name)) ∈
      addLastEdges bps := by
  rw [addLastEdges_some bps l h]
  exact List.mem_map.2 ⟨(l.name, l.requires), List.mem_map.2 ⟨l, hmem, rfl⟩, by simp⟩

/-- Claim C6: if exactly one claimed blueprint has `last = true`, any boot
order produced by dependency resolution contains every claimed blueprint's
name and places the `last` blueprint's name last, after every other
blueprint, regardless of that blueprint's own `requires` set. -/
theorem claim_c6 (bps : List Blueprint) (l : Blueprint) (ord : List String)
    (hnd : (bps.map Blueprint.name).Nodup)
    (hmem : l ∈ bps) (hlast : l.last = true)
    (huniq : ∀ b ∈ bps, b.last = true → b = l)
    (hres : finalizeBootSteps bps = some ord) :
    ord.getLast? = some l.name ∧ ∀ b ∈ bps, b.name ∈ ord := by
  have hfind : findLast bps = some l := by
    have hsome : (bps.find? (fun b => b.last)).isSome = true :=
      List.find?_isSome.2 ⟨l, hmem, hlast⟩
    obtain ⟨m, hm⟩ := Option.isSome_iff_exists.1 hsome
    have : m = l := huniq m (List.mem_of_find?_eq_some hm) (List.find?_some hm)
    rw [findLast, hm, this]
  rw [finalizeBootSteps, topsort] at hres
  constructor
  · apply topsortAux_last l.name
      ((bps.map Blueprint.name).filter (fun n => n != l.name))
      (addLastEdges bps).length (addLastEdges bps) [] ord hres
    · exact ⟨l.requires ++ (bps.map Blueprint.name).filter (fun n => n != l.name),
        addLastEdges_last_entry bps l hfind hmem,
        fun n hn => List.mem_append_right _ hn⟩
    · rw [addLastEdges_keys]; exact hnd
    · intro q hq
      by_cases hql : q.1 = l.name
      · exact Or.inl hql
      · refine Or.inr (List.mem_filter.2 ⟨?_, by simpa using hql⟩)
        rw [← addLastEdges_keys]
        exact List.mem_map.2 ⟨q, hq, rfl⟩
    · intro x hx; cases hx
  · intro b hb
    obtain ⟨suffix, hso, hsp⟩ := topsortAux_shape (addLastEdges bps).length
      (addLastEdges bps) [] ord hres
    rw [hso, List.reverse_nil, List.nil_append]
    apply hsp.mem_iff.2
    rw [addLastEdges_keys]
    exact List.mem_map.2 ⟨b, hb, rfl⟩

theorem claim_c6_witness :
    (([⟨"A", [], false⟩, ⟨"B", ["A"], false⟩, ⟨"C", [], true⟩] : List Blueprint).map
        Blueprint.name).Nodup ∧
      (⟨"C", [], true⟩ : Blueprint) ∈
        ([⟨"A", [], false⟩, ⟨"B", ["A"], false⟩, ⟨"C", [], true⟩] : List Blueprint) ∧
      (⟨"C", [], true⟩ : Blueprint).last = true ∧
      (∀ b ∈ ([⟨"A", [], false⟩, ⟨"B", ["A"], false⟩, ⟨"C", [], true⟩] : List Blueprint),
        b.last = true → b = ⟨"C", [], true⟩) ∧
      finalizeBootSteps [⟨"A", [], false⟩, ⟨"B", ["A"], false⟩, ⟨"C", [], true⟩] =
        some ["A", "B", "C"] ∧
      ((["A", "B", "C"] : List String).getLast? = some (⟨"C", [], true⟩ : Blueprint).name ∧
        ∀ b ∈ ([⟨"A", [], false⟩, ⟨"B", ["A"], false⟩, ⟨"C", [], true⟩] : List Blueprint),
          b.name ∈ (["A", "B", "C"] : List String)) :=
  ⟨by decide, by decide, rfl, by decide, by decide,
    claim_c6 [⟨"A", [], false⟩, ⟨"B", ["A"], false⟩, ⟨"C", [], true⟩] ⟨"C", [], true⟩
      ["A", "B", "C"] (by decide) (by decide) rfl (by decide) (by decide)⟩

/-- Claim C7: if the requires relation of the claimed blueprints contains a
cycle, dependency resolution fails and no boot order is produced (so
`apply` aborts and no `boot_steps` sequence exists). -/
theorem claim_c7 (bps : List Blueprint)
    (hnd : (bps.map Blueprint.name).Nodup)
    (hcyc : HasCycle bps) :
    finalizeBootSteps bps = none := by
  obtain ⟨x, ns, hch⟩ := hcyc
  obtain ⟨S, hSne, hScl⟩ := cycle_closed x ns hch
  rw [finalizeBootSteps, topsort]
  apply topsortAux_cycle S hSne (addLastEdges bps).length (addLastEdges bps) []
  · intro a ha
    obtain ⟨b, hbS, hred⟩ := hScl a ha
    obtain ⟨bp, hbp, hbpn, hbreq⟩ := hred
    have hg : (a, bp.requires) ∈ graphOf bps :=
      List.mem_map.2 ⟨bp, hbp, by rw [hbpn]⟩
    obtain ⟨d2, hd2, hsub⟩ := addLastEdges_mono bps a bp.requires hg
    exact ⟨d2, b, hd2, hbS, hsub b hbreq⟩
  · intro a _ h; cases h
  · rw [addLastEdges_keys]; exact hnd

theorem claim_c7_witness :
    (([⟨"A", ["B"], false⟩, ⟨"B", ["A"], false⟩] : List Blueprint).map
        Blueprint.name).Nodup ∧
      HasCycle [⟨"A", ["B"], false⟩, ⟨"B", ["A"], false⟩] ∧
      finalizeBootSteps [⟨"A", ["B"], false⟩, ⟨"B", ["A"], false⟩] = none := by
  have hedgeAB : ReqEdge [⟨"A", ["B"], false⟩, ⟨"B", ["A"], false⟩] "A" "B" :=
    ⟨⟨"A", ["B"], false⟩, by decide, rfl, by decide⟩
  have hedgeBA : ReqEdge [⟨"A", ["B"], false⟩, ⟨"B", ["A"], false⟩] "B" "A" :=
    ⟨⟨"B", ["A"], false⟩, by decide, rfl, by decide⟩
  have hcyc : HasCycle [⟨"A", ["B"], false⟩, ⟨"B", ["A"], false⟩] :=
    ⟨"A", ["B"], List.Chain.cons hedgeAB (List.Chain.cons hedgeBA List.Chain.nil)⟩
  exact ⟨by decide, hcyc,
    claim_c7 [⟨"A", ["B"], false⟩, ⟨"B", ["A"], false⟩] (by decide) hcyc⟩

/-! ### Claims about inclusion and the metaclass -/

theorem applyInclude_eq_filter (steps : List Bound) :
    ∀ init : List Bound,
      applyInclude steps init = init ++ steps.filter (fun c => c.startStop && c.includeIf) := by
  induction steps with
  | nil => intro init; rw [applyInclude, List.foldl_nil, List.filter_nil, List.append_nil]
  | cons c cs ih =>
    intro init
    rw [applyInclude, List.foldl_cons]
    have hstep := ih (includeStep init c)
    rw [applyInclude] at hstep
    rw [hstep, includeStep, List.filter_cons]
    by_cases hc : c.startStop && c.includeIf
    · rw [if_pos hc, if_pos hc, List.append_assoc, List.singleton_append]
    · rw [if_neg hc, if_neg hc]

/-- Claim C8: starting from an empty `parent.components`, after `apply`'s
inclusion loop the parent's components list is a subsequence of
`boot_steps` preserving relative order, and contains exactly those bound
StartStop-capable instances whose `include_if(parent)` evaluated true. -/
theorem claim_c8 (steps : List Bound) :
    List.Sublist (applyInclude steps []) steps ∧
      ∀ c, c ∈ applyInclude steps [] ↔
        (c ∈ steps ∧ c.startStop = true ∧ c.includeIf = true) := by
  have h := applyInclude_eq_filter steps []
  rw [List.nil_append] at h
  constructor
  · rw [h]; exact List.filter_sublist steps
  · intro c
    rw [h, List.mem_filter, Bool.and_eq_true]

/-- Claim C9, counterexample: a non-abstract blueprint whose declared name
is the undotted string `"pool"` (and no declared namespace) is accepted at
definition time and registered with the EMPTY name (the whole string goes
into the namespace field), rather than raising a definition-time error.
So not every non-abstract blueprint ends up with a non-empty name. -/
theorem claim_c9_counterexample :
    componentNew ⟨false, some "pool", none⟩ = NewOutcome.registered "pool" "" ∧
      ("" : String).length = 0 := by decide

/-- Claim C9, amended: for a non-abstract blueprint the only
definition-time fatal error is a MISSING `name` attribute; the metaclass
never checks that the resolved name is non-empty (an empty or undotted
declared name is accepted and registered with an empty name). -/
theorem claim_c9_amended (attrs : ClassAttrs) (h : attrs.abstract = false) :
    componentNew attrs = NewOutcome.notImplementedError ↔ attrs.name = none := by
  rw [componentNew, h]
  cases hn : attrs.name with
  | none => simp
  | some cname =>
    simp only [Bool.false_eq_true, if_false, Option.some.injEq]
    by_cases hns : attrs.nspace.getD "" = ""
    · rw [if_pos hns]
      constructor
      · intro hcon; cases hcon
      · intro hcon; cases hcon
    · rw [if_neg hns]
      constructor
      · intro hcon; cases hcon
      · intro hcon; cases hcon

theorem claim_c9_amended_witness :
    ((⟨false, none, none⟩ : ClassAttrs).abstract = false) ∧
      (componentNew ⟨false, none, none⟩ = NewOutcome.notImplementedError ↔
        (⟨false, none, none⟩ : ClassAttrs).name = none) :=
  ⟨rfl, claim_c9_amended ⟨false, none, none⟩ rfl⟩

end Bootsteps
